import Mathlib

/-
Verification of the structural stripper and codec adapter of trpc-msgpack
(src/src/utils.ts and src/src/encoder.ts).

JavaScript values are modelled with an explicit heap: primitives
(`null`, `undefined`, booleans/numbers/strings) are immediate values,
while arrays and plain objects live in a heap and are denoted by
references (their JS object identity).  This captures exactly the
notions the source code depends on: `===` on objects is reference
equality, the `WeakSet` of visited objects is a set of references, and
cyclic or shared object graphs are heaps whose nodes point at each
other.  The heap is append-only: allocation of a new array/object
appends a node, mutation of existing nodes never happens (the source
never mutates its input).
-/

set_option autoImplicit false
set_option maxRecDepth 8000

namespace TrpcMsgpack

/-- Atomic JS primitives (booleans, numbers, strings).  JS numbers are
modelled as integers; none of the verified properties depend on
floating-point behaviour. -/
inductive Prim where
  | pbool : Bool → Prim
  | pnum : Int → Prim
  | pstr : String → Prim
  deriving DecidableEq

/-- A JS value: `null`, `undefined` (the "absent" marker), a primitive,
or a reference to a heap-allocated composite (array or object).
Equality of `Val` is JS `===` on this fragment: value equality on
primitives, reference equality on composites. -/
inductive Val where
  | vnull : Val
  | vabsent : Val
  | vprim : Prim → Val
  | vref : Nat → Val
  deriving DecidableEq

/-- A heap node: an array of values or a plain object, i.e. an ordered
list of (key, value) entries with the keys distinct (JS objects cannot
hold a key twice; insertion order is the `for..in` iteration order). -/
inductive HObj where
  | harr : List Val → HObj
  | hobj : List (String × Val) → HObj
  deriving DecidableEq

/-- The heap: node `r` of `Val.vref r` is `h[r]?`.  Allocation appends. -/
abbrev Heap := List HObj

deriving instance DecidableEq for Except

/-- Failures of the stripper.  `depthExceeded` embeds the
`Error("stripUndefined: Maximum depth of 100 exceeded")` thrown by the
source.  `outOfFuel` is an artifact of the fuel-indexed embedding; it is
proved unreachable from the entry point (`stripUndefined_not_outOfFuel`). -/
inductive StripErr where
  | depthExceeded : StripErr
  | outOfFuel : StripErr
  deriving DecidableEq

/-- src/src/utils.ts line 15: `const MAX_DEPTH = 100`. -/
def MAX_DEPTH : Nat := 100

/-- Result of one internal strip call: on success, the (possibly grown)
heap, the updated visited set, and the result value. -/
abbrev StripRes := Except StripErr (Heap × List Nat × Val)

/-- The array loop of `stripUndefinedInternal` (utils.ts lines 36-48).
`f` is the recursive call at `depth + 1`, `value` the whole original
array, the remaining arguments are the loop state: elements still to
process, the index `i`, the copy-on-write accumulator `result`
(`none` while no change has been seen, as in the source where `result`
is `null`), heap and visited set.  `value.take i` is `value.slice(0, i)`. -/
def stripArrLoop (f : Val → Heap → List Nat → StripRes) (value : List Val) :
    List Val → Nat → Option (List Val) → Heap → List Nat →
    Except StripErr (Heap × List Nat × Option (List Val))
  | [], _, result, h, visited => .ok (h, visited, result)
  | item :: rest, i, result, h, visited =>
    match f item h visited with
    | .error e => .error e
    | .ok (h2, vis2, stripped) =>
      match result with
      | some racc => stripArrLoop f value rest (i + 1) (some (racc ++ [stripped])) h2 vis2
      | none =>
        if stripped = item then
          stripArrLoop f value rest (i + 1) none h2 vis2
        else
          stripArrLoop f value rest (i + 1) (some (value.take i ++ [stripped])) h2 vis2

/-- The lazy prefix copy of the object branch (utils.ts lines 58-63 and
73-77): `for (const k in obj) { if (k === key) break; if (obj[k] !==
undefined) result[k] = obj[k] }`.  Since JS object keys are distinct,
breaking at the key currently being processed copies exactly the first
`i` entries; entries with `undefined` value are skipped. -/
def objCopy (obj : List (String × Val)) (i : Nat) : List (String × Val) :=
  (obj.take i).filter (fun e => e.2 != Val.vabsent)

/-- The object loop of `stripUndefinedInternal` (utils.ts lines 54-80).
An entry whose value is `undefined` is dropped, switching to the
copy-on-write accumulator if necessary; any other entry is recursively
stripped and kept. -/
def stripObjLoop (f : Val → Heap → List Nat → StripRes) (obj : List (String × Val)) :
    List (String × Val) → Nat → Option (List (String × Val)) → Heap → List Nat →
    Except StripErr (Heap × List Nat × Option (List (String × Val)))
  | [], _, result, h, visited => .ok (h, visited, result)
  | (key, v) :: rest, i, result, h, visited =>
    if v = Val.vabsent then
      match result with
      | none => stripObjLoop f obj rest (i + 1) (some (objCopy obj i)) h visited
      | some racc => stripObjLoop f obj rest (i + 1) (some racc) h visited
    else
      match f v h visited with
      | .error e => .error e
      | .ok (h2, vis2, stripped) =>
        match result with
        | some racc => stripObjLoop f obj rest (i + 1) (some (racc ++ [(key, stripped)])) h2 vis2
        | none =>
          if stripped = v then
            stripObjLoop f obj rest (i + 1) none h2 vis2
          else
            stripObjLoop f obj rest (i + 1) (some (objCopy obj i ++ [(key, stripped)])) h2 vis2

/-- `stripUndefinedInternal(value, visited, depth)` from utils.ts lines
17-83, with an extra leading fuel argument so that the recursion is
structural (and hence computable by the kernel).  Each recursive call
consumes one unit of fuel and increases `depth` by one, so from the
entry point (fuel `MAX_DEPTH + 2`, depth 0) the fuel is `MAX_DEPTH + 2 -
depth` at every call and never reaches 0 before the source's own depth
check fires; `outOfFuel` is unreachable (see
`stripUndefined_not_outOfFuel`).

Branches, in source order: non-objects (null, undefined, primitives) are
returned unchanged; then `depth > MAX_DEPTH` throws; a value whose
reference is in `visited` is returned unchanged; otherwise the reference
is added to `visited` and the array/object loop runs, returning the
original value when the loop produced no change (`result ?? value`) and
a freshly allocated node otherwise.  The source allocates the rebuilt
array/object when the first change is found and then mutates it; here
the node is appended to the heap once, when the loop finishes.  This is
observationally equivalent: the fresh identity is never consulted
(by `===` or by the visited set) before the loop ends, and no other
allocation happens in between.  A dangling reference cannot arise in
JS; it is returned unchanged. -/
def stripUndefinedInternal : Nat → Nat → Val → Heap → List Nat → StripRes
  | 0, _, _, _, _ => .error StripErr.outOfFuel
  | fuel + 1, depth, value, h, visited =>
    match value with
    | .vnull => .ok (h, visited, value)
    | .vabsent => .ok (h, visited, value)
    | .vprim _ => .ok (h, visited, value)
    | .vref r =>
      if depth > MAX_DEPTH then .error StripErr.depthExceeded
      else if r ∈ visited then .ok (h, visited, value)
      else
        match h[r]? with
        | none => .ok (h, r :: visited, value)
        | some (HObj.harr elems) =>
          match stripArrLoop (stripUndefinedInternal fuel (depth + 1)) elems elems 0 none h (r :: visited) with
          | .error e => .error e
          | .ok (h2, vis2, none) => .ok (h2, vis2, value)
          | .ok (h2, vis2, some lst) => .ok (h2 ++ [HObj.harr lst], vis2, Val.vref h2.length)
        | some (HObj.hobj entries) =>
          match stripObjLoop (stripUndefinedInternal fuel (depth + 1)) entries entries 0 none h (r :: visited) with
          | .error e => .error e
          | .ok (h2, vis2, none) => .ok (h2, vis2, value)
          | .ok (h2, vis2, some lst) => .ok (h2 ++ [HObj.hobj lst], vis2, Val.vref h2.length)

/-- `stripUndefined(value)` from utils.ts lines 11-13: a fresh empty
visited set and depth 0.  The fuel `MAX_DEPTH + 2` is always sufficient
(the deepest possible call sits at depth `MAX_DEPTH + 1`). -/
def stripUndefined (h : Heap) (value : Val) : StripRes :=
  stripUndefinedInternal (MAX_DEPTH + 2) 0 value h []

/-- Pure value trees: the unfolding of a heap value when it is acyclic.
Used to state structural (as opposed to reference) properties. -/
inductive TVal where
  | tnull : TVal
  | tabsent : TVal
  | tprim : Prim → TVal
  | tarr : List TVal → TVal
  | tobj : List (String × TVal) → TVal

/-- Readback of a list of array elements; `f` is the readback of a
single value at one less fuel. -/
def rbArr (f : Val → Option (TVal × List Nat)) : List Val → Option (List TVal × List Nat)
  | [] => some ([], [])
  | x :: xs =>
    match f x with
    | none => none
    | some (t, rs) =>
      match rbArr f xs with
      | none => none
      | some (ts, rss) => some (t :: ts, rs ++ rss)

/-- Readback of a list of object entries. -/
def rbObj (f : Val → Option (TVal × List Nat)) :
    List (String × Val) → Option (List (String × TVal) × List Nat)
  | [] => some ([], [])
  | (k, x) :: xs =>
    match f x with
    | none => none
    | some (t, rs) =>
      match rbObj f xs with
      | none => none
      | some (ts, rss) => some ((k, t) :: ts, rs ++ rss)

/-- Fuel-bounded readback of a heap value into a pure tree, together
with the list of composite references encountered, in depth-first
order and with multiplicity.  `some` is returned exactly when the full
unfolding of the value fits within the fuel; a cyclic value reads back
as `none` at every fuel.  A value whose reference list is duplicate-free
is an unshared (tree-shaped) value. -/
def readback : Nat → Heap → Val → Option (TVal × List Nat)
  | 0, _, _ => none
  | fuel + 1, h, v =>
    match v with
    | .vnull => some (TVal.tnull, [])
    | .vabsent => some (TVal.tabsent, [])
    | .vprim p => some (TVal.tprim p, [])
    | .vref r =>
      match h[r]? with
      | none => none
      | some (HObj.harr elems) =>
        match rbArr (readback fuel h) elems with
        | none => none
        | some (ts, rs) => some (TVal.tarr ts, r :: rs)
      | some (HObj.hobj entries) =>
        match rbObj (readback fuel h) entries with
        | none => none
        | some (tes, rs) => some (TVal.tobj tes, r :: rs)

/-- `cleanT b t` holds when the tree `t` contains no `tabsent` marker
anywhere and its composite nesting depth is at most `b` (a composite
needs budget at least 1, its children are checked at `b - 1`; leaves
are fine at any budget). -/
def cleanT : Nat → TVal → Bool
  | _, .tnull => true
  | _, .tprim _ => true
  | _, .tabsent => false
  | 0, .tarr _ => false
  | 0, .tobj _ => false
  | b + 1, .tarr l => l.all (cleanT b)
  | b + 1, .tobj l => l.all (fun e => cleanT b e.2)

/-- Fuel-bounded search for an object entry whose value is the absent
marker, anywhere in the subgraph reachable from `v`.  A `true` result
is definite: some reachable object has a key bound to `undefined`. -/
def hasAbsentKey : Nat → Heap → Val → Bool
  | 0, _, _ => false
  | fuel + 1, h, v =>
    match v with
    | .vref r =>
      match h[r]? with
      | some (HObj.harr elems) => elems.any (hasAbsentKey fuel h)
      | some (HObj.hobj entries) =>
        entries.any (fun e => e.2 == Val.vabsent || hasAbsentKey fuel h e.2)
      | none => false
    | _ => false

/-- The values held directly by a heap node: the elements of an array,
the entry values of an object. -/
def hvals : HObj → List Val
  | HObj.harr l => l
  | HObj.hobj l => l.map (fun e => e.2)

/-- Reachability in the heap: `Reach h v r` holds when the composite at
reference `r` is reachable from the value `v` by following array
elements and object entry values. -/
inductive Reach (h : Heap) : Val → Nat → Prop where
  | here : ∀ r, Reach h (Val.vref r) r
  | step : ∀ {v : Val} {r c : Nat} (ho : HObj),
      Reach h v r → h[r]? = some ho → Val.vref c ∈ hvals ho → Reach h v c

/-- No absent marker occurs anywhere in the subtree reachable from `v`:
no reachable array has an `undefined` element and no reachable object
has an `undefined` entry value. -/
def NoAbsentFrom (h : Heap) (v : Val) : Prop :=
  ∀ r ho, Reach h v r → h[r]? = some ho → Val.vabsent ∉ hvals ho

/-- Errors of the codec adapter (src/src/encoder.ts).
`unexpectedTextualInput` carries the thrown `Error`'s message;
`depthExceeded` is the stripper failure propagating through `encode`;
`notSerializable` models the external serializer failing on a value it
cannot unfold (a cyclic value). -/
inductive CodecErr where
  | depthExceeded : CodecErr
  | notSerializable : CodecErr
  | unexpectedTextualInput : String → CodecErr
  deriving DecidableEq

/-- Input shapes the websocket hands to `decode`: a text frame, a
`Uint8Array`, or an `ArrayBuffer` (which decode normalizes into a
`Uint8Array` over the same bytes).  `β` is the abstract type of binary
payloads. -/
inductive WsData (β : Type) where
  | text : String → WsData β
  | binary : β → WsData β
  | arrayBuffer : β → WsData β

/-- The message of the error thrown by `msgpackEncoder.decode` on
string input (encoder.ts lines 35-38). -/
def encoderMismatchMessage : String :=
  "msgpackEncoder received string data but expected binary. Ensure both client and server are configured with experimental_encoder."

/-- Modelled from the spec: the external serializer capability
`serialize(value) -> bytes` of `@msgpack/msgpack`, which is not part of
this repository.  Following section 6 of the spec it is assumed to
round-trip all non-absent variants losslessly and is therefore modelled
as an abstract injection `ser` out of the pure tree obtained by reading
the value back from the heap; a value it cannot unfold (a cyclic one)
fails.  The fuel `MAX_DEPTH + 3` suffices for every acyclic value the
stripper can return from a successful call. -/
def serializeModel {β : Type} (ser : TVal → β) (h : Heap) (v : Val) : Option β :=
  match readback (MAX_DEPTH + 3) h v with
  | none => none
  | some (t, _) => some (ser t)

/-- `msgpackEncoder.encode` (encoder.ts line 33): strip, then hand the
result to the external serializer. -/
def msgpackEncode {β : Type} (ser : TVal → β) (h : Heap) (value : Val) : Except CodecErr β :=
  match stripUndefined h value with
  | .error _ => .error CodecErr.depthExceeded
  | .ok (h2, _, v2) =>
    match serializeModel ser h2 v2 with
    | none => .error CodecErr.notSerializable
    | some b => .ok b

/-- `msgpackEncoder.decode` (encoder.ts lines 34-42): a string input
fails immediately with the configuration-mismatch error, before any
deserialization; an `ArrayBuffer` is normalized to a `Uint8Array` over
the same bytes; the binary payload is handed to the external
deserializer `deser` (modelled from the spec as the inverse of the
serializer on non-absent trees) and its result returned unchanged. -/
def msgpackDecode {β : Type} (deser : β → TVal) : WsData β → Except CodecErr TVal
  | WsData.text _ => .error (CodecErr.unexpectedTextualInput encoderMismatchMessage)
  | WsData.binary b => .ok (deser b)
  | WsData.arrayBuffer b => .ok (deser b)

/-- A chain of `n` nested single-key objects:
`{nested: {nested: ... {}}}`, node `i` pointing at node `i + 1`, the
innermost node empty.  The outermost node is `Val.vref 0`. -/
def chainHeap (n : Nat) : Heap :=
  (List.range n).map
    (fun i => if i + 1 < n then HObj.hobj [("nested", Val.vref (i + 1))] else HObj.hobj [])

/-- A single object with 150 sibling keys, each holding a distinct empty
object: all 150 children sit at recursion depth 1. -/
def wideHeap : Heap :=
  HObj.hobj ((List.range 150).map (fun i => (toString i, Val.vref (i + 1)))) ::
    (List.range 150).map (fun _ => HObj.hobj [])

/-- The shared-reference heap refuting the universal part of the
key-omission claim: node 0 is `{a: 1, b: undefined}` and node 1 is
`{x: node0, y: node0}`, the same object reference held twice. -/
def shareHeap : Heap :=
  [HObj.hobj [("a", Val.vprim (Prim.pnum 1)), ("b", Val.vabsent)],
   HObj.hobj [("x", Val.vref 0), ("y", Val.vref 0)]]

/-- The heap of the cycle-safety example: `{a: 1, b: undefined, self: <itself>}`. -/
def cycHeap2 : Heap :=
  [HObj.hobj [("a", Val.vprim (Prim.pnum 1)), ("b", Val.vabsent), ("self", Val.vref 0)]]

/-- The heap produced by stripping `shareHeap`'s node 1: node 2 is the
rebuilt `{a: 1}` and node 3 the rebuilt `{x: node2, y: node0}` — whose
`y` entry still reaches the absent-valued key `b` of node 0. -/
def shareHeapOut : Heap :=
  [HObj.hobj [("a", Val.vprim (Prim.pnum 1)), ("b", Val.vabsent)],
   HObj.hobj [("x", Val.vref 0), ("y", Val.vref 0)],
   HObj.hobj [("a", Val.vprim (Prim.pnum 1))],
   HObj.hobj [("x", Val.vref 2), ("y", Val.vref 0)]]

/-- The heap after stripping `cycHeap2`: node 1 is the rebuilt
`{a: 1, self: node0}` with the cyclic reference intact. -/
def cycHeap2Out : Heap :=
  [HObj.hobj [("a", Val.vprim (Prim.pnum 1)), ("b", Val.vabsent), ("self", Val.vref 0)],
   HObj.hobj [("a", Val.vprim (Prim.pnum 1)), ("self", Val.vref 0)]]

/-- The array `[1, 2, undefined, 3]` of the array-preservation example. -/
def arrHeap : Heap :=
  [HObj.harr [Val.vprim (Prim.pnum 1), Val.vprim (Prim.pnum 2), Val.vabsent,
    Val.vprim (Prim.pnum 3)]]

/-- A single-element array heap whose element is `undefined`. -/
def arrAbsentHeap : Heap :=
  [HObj.harr [Val.vabsent]]

/-- The object `{keep: "value", remove: undefined}` of the
encode-strips example. -/
def c7Heap : Heap :=
  [HObj.hobj [("keep", Val.vprim (Prim.pstr "value")), ("remove", Val.vabsent)]]

/-- The wire tree of the encode-strips example: the key `remove` is not
present at all. -/
def c7Tree : TVal :=
  TVal.tobj [("keep", TVal.tprim (Prim.pstr "value"))]

/-- The mapping `{a: 1, b: undefined, c: "x"}` of the key-omission
example. -/
def wObjHeap : Heap :=
  [HObj.hobj [("a", Val.vprim (Prim.pnum 1)), ("b", Val.vabsent),
    ("c", Val.vprim (Prim.pstr "x"))]]

/-- The heap after stripping `wObjHeap`: node 1 is the rebuilt
`{a: 1, c: "x"}`, with `b` not present as a key at all. -/
def wObjOut : Heap :=
  [HObj.hobj [("a", Val.vprim (Prim.pnum 1)), ("b", Val.vabsent),
    ("c", Val.vprim (Prim.pstr "x"))],
   HObj.hobj [("a", Val.vprim (Prim.pnum 1)), ("c", Val.vprim (Prim.pstr "x"))]]

/-- The array loop only fails with an error produced by `f`. -/
theorem stripArrLoop_ne_outOfFuel
    (f : Val → Heap → List Nat → StripRes) (value : List Val)
    (Hf : ∀ c h vis, f c h vis ≠ Except.error StripErr.outOfFuel) :
    ∀ (l : List Val) (i : Nat) (res : Option (List Val)) (h : Heap) (vis : List Nat),
      stripArrLoop f value l i res h vis ≠ Except.error StripErr.outOfFuel := by
  intro l
  induction l with
  | nil => intro i res h vis; simp [stripArrLoop]
  | cons item rest ih =>
    intro i res h vis
    simp only [stripArrLoop]
    cases hf : f item h vis with
    | error e =>
      have hne := Hf item h vis
      rw [hf] at hne
      simpa using hne
    | ok p =>
      obtain ⟨h2, vis2, stripped⟩ := p
      cases res with
      | some racc => exact ih _ _ _ _
      | none =>
        by_cases hc : stripped = item
        · simp only [if_pos hc]; exact ih _ _ _ _
        · simp only [if_neg hc]; exact ih _ _ _ _

/-- The object loop only fails with an error produced by `f`. -/
theorem stripObjLoop_ne_outOfFuel
    (f : Val → Heap → List Nat → StripRes) (obj : List (String × Val))
    (Hf : ∀ c h vis, f c h vis ≠ Except.error StripErr.outOfFuel) :
    ∀ (l : List (String × Val)) (i : Nat) (res : Option (List (String × Val)))
      (h : Heap) (vis : List Nat),
      stripObjLoop f obj l i res h vis ≠ Except.error StripErr.outOfFuel := by
  intro l
  induction l with
  | nil => intro i res h vis; simp [stripObjLoop]
  | cons e rest ih =>
    obtain ⟨key, v⟩ := e
    intro i res h vis
    simp only [stripObjLoop]
    by_cases hv : v = Val.vabsent
    · simp only [if_pos hv]
      cases res with
      | none => exact ih _ _ _ _
      | some racc => exact ih _ _ _ _
    · simp only [if_neg hv]
      cases hf : f v h vis with
      | error e =>
        have hne := Hf v h vis
        rw [hf] at hne
        simpa using hne
      | ok p =>
        obtain ⟨h2, vis2, stripped⟩ := p
        cases res with
        | some racc => exact ih _ _ _ _
        | none =>
          by_cases hc : stripped = v
          · simp only [if_pos hc]; exact ih _ _ _ _
          · simp only [if_neg hc]; exact ih _ _ _ _

/-- With at least one unit of fuel and the invariant `depth + fuel ≥
MAX_DEPTH + 2` maintained by the entry point, the fuel can never run
out: the source's own depth check fires first. -/
theorem stripUndefinedInternal_ne_outOfFuel :
    ∀ (fuel depth : Nat) (v : Val) (h : Heap) (vis : List Nat),
      1 ≤ fuel → MAX_DEPTH + 2 ≤ depth + fuel →
      stripUndefinedInternal fuel depth v h vis ≠ Except.error StripErr.outOfFuel := by
  intro fuel
  induction fuel with
  | zero => intro depth v h vis h1 _; exact absurd h1 (by omega)
  | succ fuel ih =>
    intro depth v h vis _ hsum
    cases v with
    | vnull => simp [stripUndefinedInternal]
    | vabsent => simp [stripUndefinedInternal]
    | vprim p => simp [stripUndefinedInternal]
    | vref r =>
      simp only [stripUndefinedInternal]
      by_cases hd : depth > MAX_DEPTH
      · simp [if_pos hd]
      · simp only [if_neg hd]
        have hfuel1 : 1 ≤ fuel := by
          simp only [MAX_DEPTH] at hsum hd ⊢; omega
        have hsum1 : MAX_DEPTH + 2 ≤ (depth + 1) + fuel := by omega
        have Hf : ∀ c h2 vis2, stripUndefinedInternal fuel (depth + 1) c h2 vis2 ≠
            Except.error StripErr.outOfFuel :=
          fun c h2 vis2 => ih (depth + 1) c h2 vis2 hfuel1 hsum1
        by_cases hm : r ∈ vis
        · simp [if_pos hm]
        · simp only [if_neg hm]
          split
          · simp
          · rename_i elems heq
            split
            · rename_i e hl
              have hne := stripArrLoop_ne_outOfFuel _ elems Hf elems 0 none h (r :: vis)
              rw [hl] at hne
              simpa using hne
            · simp
            · simp
          · rename_i entries heq
            split
            · rename_i e hl
              have hne := stripObjLoop_ne_outOfFuel _ entries Hf entries 0 none h (r :: vis)
              rw [hl] at hne
              simpa using hne
            · simp
            · simp

/-- The entry point never fails with the fuel artifact: the embedding's
fuel is invisible from `stripUndefined`. -/
theorem stripUndefined_not_outOfFuel (h : Heap) (v : Val) :
    stripUndefined h v ≠ Except.error StripErr.outOfFuel :=
  stripUndefinedInternal_ne_outOfFuel (MAX_DEPTH + 2) 0 v h [] (by omega) (by omega)

/-- A successful array loop only appends to the heap. -/
theorem stripArrLoop_extends
    (f : Val → Heap → List Nat → StripRes)
    (Hf : ∀ c h vis h2 vis2 v2, f c h vis = Except.ok (h2, vis2, v2) → ∃ ext, h2 = h ++ ext)
    (value : List Val) :
    ∀ (l : List Val) (i : Nat) (res : Option (List Val)) (h : Heap) (vis : List Nat)
      (h2 : Heap) (vis2 : List Nat) (res2 : Option (List Val)),
      stripArrLoop f value l i res h vis = Except.ok (h2, vis2, res2) →
      ∃ ext, h2 = h ++ ext := by
  intro l
  induction l with
  | nil =>
    intro i res h vis h2 vis2 res2 hstep
    simp only [stripArrLoop, Except.ok.injEq, Prod.mk.injEq] at hstep
    exact ⟨[], by simp [hstep.1.symm]⟩
  | cons item rest ih =>
    intro i res h vis h2 vis2 res2 hstep
    simp only [stripArrLoop] at hstep
    split at hstep
    · exact absurd hstep (by simp)
    · rename_i ha visa stripped hf
      obtain ⟨e1, he1⟩ := Hf item h vis _ _ _ hf
      split at hstep
      · obtain ⟨e2, he2⟩ := ih _ _ _ _ _ _ _ hstep
        exact ⟨e1 ++ e2, by rw [he2, he1, List.append_assoc]⟩
      · split at hstep
        · obtain ⟨e2, he2⟩ := ih _ _ _ _ _ _ _ hstep
          exact ⟨e1 ++ e2, by rw [he2, he1, List.append_assoc]⟩
        · obtain ⟨e2, he2⟩ := ih _ _ _ _ _ _ _ hstep
          exact ⟨e1 ++ e2, by rw [he2, he1, List.append_assoc]⟩

/-- A successful object loop only appends to the heap. -/
theorem stripObjLoop_extends
    (f : Val → Heap → List Nat → StripRes)
    (Hf : ∀ c h vis h2 vis2 v2, f c h vis = Except.ok (h2, vis2, v2) → ∃ ext, h2 = h ++ ext)
    (obj : List (String × Val)) :
    ∀ (l : List (String × Val)) (i : Nat) (res : Option (List (String × Val)))
      (h : Heap) (vis : List Nat)
      (h2 : Heap) (vis2 : List Nat) (res2 : Option (List (String × Val))),
      stripObjLoop f obj l i res h vis = Except.ok (h2, vis2, res2) →
      ∃ ext, h2 = h ++ ext := by
  intro l
  induction l with
  | nil =>
    intro i res h vis h2 vis2 res2 hstep
    simp only [stripObjLoop, Except.ok.injEq, Prod.mk.injEq] at hstep
    exact ⟨[], by simp [hstep.1.symm]⟩
  | cons e rest ih =>
    obtain ⟨key, v⟩ := e
    intro i res h vis h2 vis2 res2 hstep
    simp only [stripObjLoop] at hstep
    split at hstep
    · split at hstep
      · exact ih _ _ _ _ _ _ _ hstep
      · exact ih _ _ _ _ _ _ _ hstep
    · split at hstep
      · exact absurd hstep (by simp)
      · rename_i ha visa stripped hf
        obtain ⟨e1, he1⟩ := Hf v h vis _ _ _ hf
        split at hstep
        · obtain ⟨e2, he2⟩ := ih _ _ _ _ _ _ _ hstep
          exact ⟨e1 ++ e2, by rw [he2, he1, List.append_assoc]⟩
        · split at hstep
          · obtain ⟨e2, he2⟩ := ih _ _ _ _ _ _ _ hstep
            exact ⟨e1 ++ e2, by rw [he2, he1, List.append_assoc]⟩
          · obtain ⟨e2, he2⟩ := ih _ _ _ _ _ _ _ hstep
            exact ⟨e1 ++ e2, by rw [he2, he1, List.append_assoc]⟩

/-- A successful strip call only appends to the heap: the input graph is
never mutated, every node of the input heap survives unchanged at its
reference. -/
theorem stripUndefinedInternal_extends :
    ∀ (fuel depth : Nat) (v : Val) (h : Heap) (vis : List Nat)
      (h2 : Heap) (vis2 : List Nat) (v2 : Val),
      stripUndefinedInternal fuel depth v h vis = Except.ok (h2, vis2, v2) →
      ∃ ext, h2 = h ++ ext := by
  intro fuel
  induction fuel with
  | zero =>
    intro depth v h vis h2 vis2 v2 hstep
    exact absurd hstep (by simp [stripUndefinedInternal])
  | succ fuel ih =>
    intro depth v h vis h2 vis2 v2 hstep
    have Hf : ∀ c hh visc hc visc2 vc, stripUndefinedInternal fuel (depth + 1) c hh visc = Except.ok (hc, visc2, vc) →
        ∃ ext, hc = hh ++ ext := fun c hh visc hc visc2 vc hcall => ih (depth + 1) c hh visc hc visc2 vc hcall
    cases v with
    | vnull =>
      simp only [stripUndefinedInternal, Except.ok.injEq, Prod.mk.injEq] at hstep
      exact ⟨[], by simp [hstep.1.symm]⟩
    | vabsent =>
      simp only [stripUndefinedInternal, Except.ok.injEq, Prod.mk.injEq] at hstep
      exact ⟨[], by simp [hstep.1.symm]⟩
    | vprim p =>
      simp only [stripUndefinedInternal, Except.ok.injEq, Prod.mk.injEq] at hstep
      exact ⟨[], by simp [hstep.1.symm]⟩
    | vref r =>
      simp only [stripUndefinedInternal] at hstep
      split at hstep
      · exact absurd hstep (by simp)
      · split at hstep
        · simp only [Except.ok.injEq, Prod.mk.injEq] at hstep
          exact ⟨[], by simp [hstep.1.symm]⟩
        · split at hstep
          · simp only [Except.ok.injEq, Prod.mk.injEq] at hstep
            exact ⟨[], by simp [hstep.1.symm]⟩
          · rename_i elems heq
            split at hstep
            · exact absurd hstep (by simp)
            · rename_i hl visl hloop
              simp only [Except.ok.injEq, Prod.mk.injEq] at hstep
              obtain ⟨ext, hext⟩ := stripArrLoop_extends _ Hf elems elems 0 none h (r :: vis) _ _ _ hloop
              exact ⟨ext, by rw [hstep.1.symm, hext]⟩
            · rename_i hl visl lst hloop
              simp only [Except.ok.injEq, Prod.mk.injEq] at hstep
              obtain ⟨ext, hext⟩ := stripArrLoop_extends _ Hf elems elems 0 none h (r :: vis) _ _ _ hloop
              exact ⟨ext ++ [HObj.harr lst], by rw [hstep.1.symm, hext, List.append_assoc]⟩
          · rename_i entries heq
            split at hstep
            · exact absurd hstep (by simp)
            · rename_i hl visl hloop
              simp only [Except.ok.injEq, Prod.mk.injEq] at hstep
              obtain ⟨ext, hext⟩ := stripObjLoop_extends _ Hf entries entries 0 none h (r :: vis) _ _ _ hloop
              exact ⟨ext, by rw [hstep.1.symm, hext]⟩
            · rename_i hl visl lst hloop
              simp only [Except.ok.injEq, Prod.mk.injEq] at hstep
              obtain ⟨ext, hext⟩ := stripObjLoop_extends _ Hf entries entries 0 none h (r :: vis) _ _ _ hloop
              exact ⟨ext ++ [HObj.hobj lst], by rw [hstep.1.symm, hext, List.append_assoc]⟩

/-- Reachability transport: whatever is reachable from a child value of
the node at `r` is reachable from `r`. -/
theorem reach_child (h : Heap) (r : Nat) (ho : HObj) (hr : h[r]? = some ho) :
    ∀ (c : Val) (x : Nat), Reach h c x → c ∈ hvals ho → Reach h (Val.vref r) x := by
  intro c x hreach
  induction hreach with
  | here y => exact fun hc => Reach.step ho (Reach.here r) hr hc
  | step ho2 hrch hr2 hmem ih => exact fun hc => Reach.step ho2 (ih hc) hr2 hmem

/-- Absence of reachable absent markers is inherited by the children of
a reachable node. -/
theorem noAbsentFrom_child (h : Heap) (r : Nat) (ho : HObj) (c : Val)
    (hna : NoAbsentFrom h (Val.vref r)) (hr : h[r]? = some ho) (hc : c ∈ hvals ho) :
    NoAbsentFrom h c :=
  fun x hx hreach hget => hna x hx (reach_child h r ho hr c x hreach hc) hget

/-- Stripping a value other than the absent marker never returns the
absent marker: leaves return themselves, composites return a reference. -/
theorem stripUndefinedInternal_result_not_vabsent
    (fuel depth : Nat) (c : Val) (h : Heap) (vis : List Nat)
    (h2 : Heap) (vis2 : List Nat) (c2 : Val)
    (hc : c ≠ Val.vabsent)
    (hstep : stripUndefinedInternal fuel depth c h vis = Except.ok (h2, vis2, c2)) :
    c2 ≠ Val.vabsent := by
  cases fuel with
  | zero => exact absurd hstep (by simp [stripUndefinedInternal])
  | succ fuel =>
    cases c with
    | vnull =>
      simp only [stripUndefinedInternal, Except.ok.injEq, Prod.mk.injEq] at hstep
      rw [hstep.2.2.symm]
      simp
    | vabsent => exact absurd rfl hc
    | vprim p =>
      simp only [stripUndefinedInternal, Except.ok.injEq, Prod.mk.injEq] at hstep
      rw [hstep.2.2.symm]
      simp
    | vref r =>
      simp only [stripUndefinedInternal] at hstep
      split at hstep
      · exact absurd hstep (by simp)
      · split at hstep
        · simp only [Except.ok.injEq, Prod.mk.injEq] at hstep
          rw [hstep.2.2.symm]
          simp
        · split at hstep
          · simp only [Except.ok.injEq, Prod.mk.injEq] at hstep
            rw [hstep.2.2.symm]
            simp
          · split at hstep
            · exact absurd hstep (by simp)
            · simp only [Except.ok.injEq, Prod.mk.injEq] at hstep
              rw [hstep.2.2.symm]
              simp
            · simp only [Except.ok.injEq, Prod.mk.injEq] at hstep
              rw [hstep.2.2.symm]
              simp
          · split at hstep
            · exact absurd hstep (by simp)
            · simp only [Except.ok.injEq, Prod.mk.injEq] at hstep
              rw [hstep.2.2.symm]
              simp
            · simp only [Except.ok.injEq, Prod.mk.injEq] at hstep
              rw [hstep.2.2.symm]
              simp

/-- The prefix copy built by the object branch never contains an entry
with absent value (the copy filters them out). -/
theorem objCopy_clean (obj : List (String × Val)) (i : Nat) :
    ∀ e ∈ objCopy obj i, e.2 ≠ Val.vabsent := by
  intro e he
  have := (List.mem_filter.mp he).2
  simpa using this

/-- Once the object loop has switched to the copy-on-write accumulator
it never switches back. -/
theorem stripObjLoop_some_stays
    (f : Val → Heap → List Nat → StripRes) (obj : List (String × Val)) :
    ∀ (l : List (String × Val)) (i : Nat) (a : List (String × Val))
      (h : Heap) (vis : List Nat) (h2 : Heap) (vis2 : List Nat)
      (res2 : Option (List (String × Val))),
      stripObjLoop f obj l i (some a) h vis = Except.ok (h2, vis2, res2) →
      ∃ lst, res2 = some lst := by
  intro l
  induction l with
  | nil =>
    intro i a h vis h2 vis2 res2 hstep
    simp only [stripObjLoop, Except.ok.injEq, Prod.mk.injEq] at hstep
    exact ⟨a, hstep.2.2.symm⟩
  | cons e rest ih =>
    obtain ⟨key, v⟩ := e
    intro i a h vis h2 vis2 res2 hstep
    simp only [stripObjLoop] at hstep
    split at hstep
    · exact ih _ _ _ _ _ _ _ hstep
    · split at hstep
      · exact absurd hstep (by simp)
      · exact ih _ _ _ _ _ _ _ hstep

/-- If the object loop finishes with the accumulator still unset, none
of the processed entries had an absent value. -/
theorem stripObjLoop_none_clean
    (f : Val → Heap → List Nat → StripRes) (obj : List (String × Val)) :
    ∀ (l : List (String × Val)) (i : Nat) (h : Heap) (vis : List Nat)
      (h2 : Heap) (vis2 : List Nat),
      stripObjLoop f obj l i none h vis = Except.ok (h2, vis2, none) →
      ∀ e ∈ l, e.2 ≠ Val.vabsent := by
  intro l
  induction l with
  | nil => intro i h vis h2 vis2 _ e he; exact absurd he (by simp)
  | cons x rest ih =>
    obtain ⟨key, v⟩ := x
    intro i h vis h2 vis2 hstep e he
    simp only [stripObjLoop] at hstep
    split at hstep
    · rename_i hv
      obtain ⟨lst, hlst⟩ := stripObjLoop_some_stays f obj rest _ _ _ _ _ _ _ hstep
      exact absurd hlst (by simp)
    · rename_i hv
      split at hstep
      · exact absurd hstep (by simp)
      · rename_i ha visa stripped hf
        split at hstep
        · rcases List.mem_cons.mp he with hex | hexs
          · rw [hex]; exact hv
          · exact ih _ _ _ _ _ hstep e hexs
        · obtain ⟨lst, hlst⟩ := stripObjLoop_some_stays f obj rest _ _ _ _ _ _ _ hstep
          exact absurd hlst (by simp)

/-- If `f` never turns a non-absent value into the absent marker, the
accumulator of the object loop only ever holds entries with non-absent
values: the rebuilt object is absent-free. -/
theorem stripObjLoop_some_clean
    (f : Val → Heap → List Nat → StripRes) (obj : List (String × Val))
    (Hfna : ∀ c hcal viscal hcal2 viscal2 c2, c ≠ Val.vabsent →
      f c hcal viscal = Except.ok (hcal2, viscal2, c2) → c2 ≠ Val.vabsent) :
    ∀ (l : List (String × Val)) (i : Nat) (acc : Option (List (String × Val)))
      (h : Heap) (vis : List Nat) (h2 : Heap) (vis2 : List Nat) (lst : List (String × Val)),
      stripObjLoop f obj l i acc h vis = Except.ok (h2, vis2, some lst) →
      (∀ a, acc = some a → ∀ e ∈ a, e.2 ≠ Val.vabsent) →
      ∀ e ∈ lst, e.2 ≠ Val.vabsent := by
  intro l
  induction l with
  | nil =>
    intro i acc h vis h2 vis2 lst hstep hacc
    simp only [stripObjLoop, Except.ok.injEq, Prod.mk.injEq] at hstep
    exact hacc lst hstep.2.2
  | cons x rest ih =>
    obtain ⟨key, v⟩ := x
    intro i acc h vis h2 vis2 lst hstep hacc
    simp only [stripObjLoop] at hstep
    split at hstep
    · rename_i hv
      split at hstep
      · exact ih _ _ _ _ _ _ _ hstep
          (fun a ha e he => objCopy_clean obj i e (by rw [(Option.some.injEq _ _).mp ha.symm] at he; exact he))
      · rename_i racc
        exact ih _ _ _ _ _ _ _ hstep
          (fun a ha e he => hacc racc rfl e (by rw [(Option.some.injEq _ _).mp ha.symm] at he; exact he))
    · rename_i hv
      split at hstep
      · exact absurd hstep (by simp)
      · rename_i ha visa stripped hf
        have hstr : stripped ≠ Val.vabsent := Hfna v h vis ha visa stripped hv hf
        split at hstep
        · rename_i racc
          refine ih _ _ _ _ _ _ _ hstep (fun a haeq e he => ?_)
          rw [(Option.some.injEq _ _).mp haeq.symm] at he
          rcases List.mem_append.mp he with h1 | h2
          · exact hacc racc rfl e h1
          · rw [show e = (key, stripped) by simpa using h2]
            exact hstr
        · split at hstep
          · exact ih _ _ _ _ _ _ _ hstep (fun a haeq => by simp at haeq)
          · refine ih _ _ _ _ _ _ _ hstep (fun a haeq e he => ?_)
            rw [(Option.some.injEq _ _).mp haeq.symm] at he
            rcases List.mem_append.mp he with h1 | h2
            · exact objCopy_clean obj i e h1
            · rw [show e = (key, stripped) by simpa using h2]
              exact hstr

/-- If the array loop rebuilds the array, the rebuilt array has the
same length as the original and keeps every absent slot of the original
in place (given that `f` maps the absent marker to itself, which the
stripper does since `undefined` is not an object). -/
theorem stripArrLoop_shape
    (f : Val → Heap → List Nat → StripRes) (value : List Val)
    (Hfa : ∀ hcal viscal hcal2 viscal2 c2,
      f Val.vabsent hcal viscal = Except.ok (hcal2, viscal2, c2) → c2 = Val.vabsent) :
    ∀ (l : List Val) (i : Nat) (acc : Option (List Val)) (h : Heap) (vis : List Nat)
      (h2 : Heap) (vis2 : List Nat) (lst : List Val),
      stripArrLoop f value l i acc h vis = Except.ok (h2, vis2, some lst) →
      value = value.take i ++ l →
      i ≤ value.length →
      (∀ a, acc = some a → a.length = i ∧
        ∀ (j : Nat), j < i → value[j]? = some Val.vabsent → a[j]? = some Val.vabsent) →
      lst.length = value.length ∧
        ∀ (j : Nat), value[j]? = some Val.vabsent → lst[j]? = some Val.vabsent := by
  intro l
  induction l with
  | nil =>
    intro i acc h vis h2 vis2 lst hstep hdec hle hacc
    simp only [stripArrLoop, Except.ok.injEq, Prod.mk.injEq] at hstep
    obtain ⟨hlen, habs⟩ := hacc lst hstep.2.2
    have hvl : value.length ≤ i := by
      have := congrArg List.length hdec
      simpa [List.length_take] using this
    have hi : i = value.length := le_antisymm hle hvl
    refine ⟨by rw [hlen, hi], fun j hj => ?_⟩
    have hjlt : j < value.length := by
      by_contra hc
      have hnone : value[j]? = none := List.getElem?_eq_none (by omega)
      rw [hnone] at hj
      exact absurd hj (by simp)
    exact habs j (by omega) hj
  | cons item rest ih =>
    intro i acc h vis h2 vis2 lst hstep hdec hle hacc
    have hilt : i < value.length := by
      have := congrArg List.length hdec
      simp [List.length_take] at this
      omega
    have htake : (value.take i).length = i := by simp [List.length_take]; omega
    have hvi : value[i]? = some item := by
      conv_lhs => rw [hdec]
      rw [List.getElem?_append_right (by omega)]
      simp [htake]
    have hdec2 : value = value.take (i + 1) ++ rest := by
      conv_lhs => rw [hdec]
      rw [List.take_succ, hvi]
      simp
    simp only [stripArrLoop] at hstep
    split at hstep
    · exact absurd hstep (by simp)
    · rename_i ha visa stripped hf
      have hstrab : item = Val.vabsent → stripped = Val.vabsent := by
        intro he
        rw [he] at hf
        exact Hfa _ _ _ _ _ hf
      split at hstep
      · rename_i racc
        refine ih _ _ _ _ _ _ _ hstep hdec2 (by omega) (fun a haeq => ?_)
        obtain ⟨hlen, habs⟩ := hacc racc rfl
        have ha2 : a = racc ++ [stripped] := (Option.some.injEq _ _).mp haeq.symm
        refine ⟨by simp [ha2, hlen], fun j hj hjab => ?_⟩
        rcases Nat.lt_or_ge j i with hji | hji
        · rw [ha2, List.getElem?_append_left (by omega)]
          exact habs j hji hjab
        · have hj_eq : j = i := by omega
          rw [hj_eq] at hjab
          rw [hvi] at hjab
          have : item = Val.vabsent := by simpa using hjab
          rw [ha2, hj_eq, show i = racc.length from hlen.symm, List.getElem?_concat_length]
          rw [hstrab this]
      · split at hstep
        · exact ih _ _ _ _ _ _ _ hstep hdec2 (by omega) (fun a haeq => by simp at haeq)
        · rename_i hcond
          refine ih _ _ _ _ _ _ _ hstep hdec2 (by omega) (fun a haeq => ?_)
          have ha2 : a = value.take i ++ [stripped] := (Option.some.injEq _ _).mp haeq.symm
          refine ⟨by simp [ha2, htake], fun j hj hjab => ?_⟩
          rcases Nat.lt_or_ge j i with hji | hji
          · rw [ha2, List.getElem?_append_left (by simp [htake]; omega)]
            rw [List.getElem?_take_of_lt hji]
            exact hjab
          · have hj_eq : j = i := by omega
            rw [hj_eq] at hjab
            rw [hvi] at hjab
            have hit : item = Val.vabsent := by simpa using hjab
            exact absurd (hstrab hit ▸ hit.symm) hcond

/-- C4: the recursion depth is bounded by the fixed maximum
`MAX_DEPTH = 100`, counted per recursive descent into a composite and
not per sibling: a chain of 99 nested single-key mappings strips
without error, a chain of 150 nested mappings fails with the
depth-exceeded error, and a single mapping with 150 sibling composite
children (all at depth 1) strips without error.  The failure aborts the
whole call with no partial result: by construction of `StripRes` the
error constructor carries no heap and no value. -/
theorem c4_depth_limit :
    (stripUndefined (chainHeap 99) (Val.vref 0)).isOk = true ∧
    stripUndefined (chainHeap 150) (Val.vref 0) = Except.error StripErr.depthExceeded ∧
    (stripUndefined wideHeap (Val.vref 0)).isOk = true := by
  refine ⟨by decide, by decide, by decide⟩

/-- C10: the exact boundary of the depth check.  Leaf values return
before the check (an absent marker passed at top level, or a primitive
at any depth, is returned unchanged with no error), the check fires
only when a composite is reached at depth strictly greater than 100, so
a chain of 101 nested composites (deepest composite at recursion depth
100) strips without error while a chain of 102 raises the
depth-exceeded failure. -/
theorem c10_boundary :
    (stripUndefined (chainHeap 101) (Val.vref 0)).isOk = true ∧
    stripUndefined (chainHeap 102) (Val.vref 0) = Except.error StripErr.depthExceeded ∧
    (∀ h : Heap, stripUndefined h Val.vabsent = Except.ok (h, [], Val.vabsent)) ∧
    (∀ (fuel depth : Nat) (h : Heap) (vis : List Nat) (p : Prim),
      stripUndefinedInternal (fuel + 1) depth (Val.vprim p) h vis =
        Except.ok (h, vis, Val.vprim p)) := by
  refine ⟨by decide, by decide, fun h => rfl, fun fuel depth h vis p => rfl⟩

/-- C5: the stripper terminates on every input — every call either
succeeds or fails with the controlled depth-exceeded error (the fuel of
the embedding never runs out); a composite whose reference is already
in the visited set is returned unchanged without further recursion; and
on the self-containing mapping `{a: 1, b: undefined, self: <itself>}`
the result drops the non-cyclic absent field `b` and keeps the cyclic
reference (to the original node) intact. -/
theorem c5_termination :
    (∀ (h : Heap) (v : Val), (stripUndefined h v).isOk = true ∨
      stripUndefined h v = Except.error StripErr.depthExceeded) ∧
    (∀ (fuel depth : Nat) (h : Heap) (vis : List Nat) (r : Nat),
      depth ≤ MAX_DEPTH → r ∈ vis →
      stripUndefinedInternal (fuel + 1) depth (Val.vref r) h vis =
        Except.ok (h, vis, Val.vref r)) ∧
    stripUndefined cycHeap2 (Val.vref 0) =
      Except.ok (cycHeap2Out, [0], Val.vref 1) := by
  refine ⟨?_, ?_, by decide⟩
  · intro h v
    cases hres : stripUndefined h v with
    | ok p => left; simp [Except.isOk, Except.toBool]
    | error e =>
      cases e with
      | depthExceeded => right; rfl
      | outOfFuel => exact absurd hres (stripUndefined_not_outOfFuel h v)
  · intro fuel depth h vis r hdep hmem
    simp [stripUndefinedInternal, if_neg (Nat.not_lt.mpr hdep), if_pos hmem]

/-- C5 witness: the visited-set conjunct applied at a concrete input —
node 0 is already in the visited set, the call at depth 0 returns it
unchanged. -/
theorem c5_witness :
    stripUndefinedInternal 1 0 (Val.vref 0) [HObj.hobj []] [0] =
      Except.ok ([HObj.hobj []], [0], Val.vref 0) :=
  c5_termination.2.1 0 0 [HObj.hobj []] [0] 0 (by decide) (by decide)

/-- C8: decode fails on every textual input, whatever its content and
whatever the deserializer (so no deserialization is attempted), with
the error carrying the message naming the encoder-configuration
mismatch; binary input — a `Uint8Array` or an `ArrayBuffer` normalized
to one — is never rejected by this check and is handed to the
deserializer. -/
theorem c8_decode_text :
    ∀ (β : Type) (deser : β → TVal),
      (∀ s : String, msgpackDecode deser (WsData.text s) =
        Except.error (CodecErr.unexpectedTextualInput encoderMismatchMessage)) ∧
      (∀ b : β, msgpackDecode deser (WsData.binary b) = Except.ok (deser b)) ∧
      (∀ b : β, msgpackDecode deser (WsData.arrayBuffer b) = Except.ok (deser b)) :=
  fun _ _ => ⟨fun _ => rfl, fun _ => rfl, fun _ => rfl⟩

/-- C7: encode strips the absent-valued key `remove` before handing the
tree to the serializer, so a round trip of `{keep: "value", remove:
undefined}` through any lossless serializer/deserializer pair decodes
to the mapping `{keep: "value"}` whose entry list does not contain the
key `remove` at all. -/
theorem c7_encode_strips {β : Type} (ser : TVal → β) (deser : β → TVal)
    (hrt : ∀ u, cleanT (MAX_DEPTH + 1) u = true → deser (ser u) = u) :
    msgpackEncode ser c7Heap (Val.vref 0) = Except.ok (ser c7Tree) ∧
    msgpackDecode deser (WsData.binary (ser c7Tree)) = Except.ok c7Tree := by
  refine ⟨rfl, ?_⟩
  simp only [msgpackDecode]
  rw [hrt c7Tree rfl]

/-- C7 witness: the statement instantiated with the identity
serializer/deserializer pair, which round-trips losslessly. -/
theorem c7_witness :
    msgpackEncode (fun u => u) c7Heap (Val.vref 0) = Except.ok c7Tree ∧
    msgpackDecode (fun u => u) (WsData.binary c7Tree) = Except.ok c7Tree :=
  c7_encode_strips (fun u => u) (fun u => u) (fun _ _ => rfl)

/-- C1 counterexample: when the same object reference is held twice,
an absent-valued key survives in the output.  Node 1 of `shareHeap` is
`{x: node0, y: node0}` with node 0 = `{a: 1, b: undefined}`.  Stripping
it rebuilds `x` to a fresh `{a: 1}`, but when the loop reaches `y` node
0 is already in the visited set and is returned unchanged — so the
result `{x: {a: 1}, y: node0}` still reaches the key `b` whose value is
the absent marker.  The claim's "no key whose value is Absent ever
appears anywhere in the output" is therefore false as stated. -/
theorem c1_counterexample :
    stripUndefined shareHeap (Val.vref 1) =
      Except.ok (shareHeapOut, [0, 1], Val.vref 3) ∧
    hasAbsentKey 4 shareHeapOut (Val.vref 3) = true ∧
    ¬ NoAbsentFrom shareHeapOut (Val.vref 3) := by
  refine ⟨by decide, by decide, ?_⟩
  intro hna
  have hre : Reach shareHeapOut (Val.vref 3) 0 :=
    Reach.step (HObj.hobj [("x", Val.vref 2), ("y", Val.vref 0)])
      (Reach.here 3) rfl (by decide)
  exact hna 0 (HObj.hobj [("a", Val.vprim (Prim.pnum 1)), ("b", Val.vabsent)])
    hre rfl (by decide)

/-- C1 (amended as the sharing counterexample forces): every entry of
the mapping the call returns has a non-absent value — stripping a
mapping omits every absent-valued entry from the returned mapping
itself; an absent-valued key can only survive deeper in the output,
inside a shared or cyclic subtree that the visited-set short-circuit
returned unchanged. -/
theorem c1_absent_entries_omitted (h : Heap) (r : Nat) (entries : List (String × Val))
    (h2 : Heap) (vis2 : List Nat) (v2 : Val)
    (hr : h[r]? = some (HObj.hobj entries))
    (hstep : stripUndefined h (Val.vref r) = Except.ok (h2, vis2, v2)) :
    ∃ r2 entries2, v2 = Val.vref r2 ∧ h2[r2]? = some (HObj.hobj entries2) ∧
      ∀ e ∈ entries2, e.2 ≠ Val.vabsent := by
  have hrlt : r < h.length := by
    by_contra hc
    have hnone : h[r]? = none := List.getElem?_eq_none (by omega)
    rw [hnone] at hr
    exact absurd hr (by simp)
  have Hf : ∀ c hh visc hc2 visc2 vc,
      stripUndefinedInternal (MAX_DEPTH + 1) (0 + 1) c hh visc = Except.ok (hc2, visc2, vc) →
      ∃ ext, hc2 = hh ++ ext :=
    fun c hh visc hc2 visc2 vc hcall =>
      stripUndefinedInternal_extends _ _ c hh visc _ _ _ hcall
  have Hfna : ∀ c hcal viscal hcal2 viscal2 c2, c ≠ Val.vabsent →
      stripUndefinedInternal (MAX_DEPTH + 1) (0 + 1) c hcal viscal =
        Except.ok (hcal2, viscal2, c2) →
      c2 ≠ Val.vabsent :=
    fun c a b cc d e hne hcall =>
      stripUndefinedInternal_result_not_vabsent _ _ c a b cc d e hne hcall
  rw [stripUndefined, show (MAX_DEPTH + 2 : Nat) = (MAX_DEPTH + 1) + 1 from rfl] at hstep
  simp only [stripUndefinedInternal] at hstep
  rw [if_neg (show ¬ (0 > MAX_DEPTH) by decide),
    if_neg (show ¬ r ∈ ([] : List Nat) by simp)] at hstep
  split at hstep
  · rename_i heq
    rw [hr] at heq
    exact absurd heq (by simp)
  · rename_i elems heq
    rw [hr] at heq
    exact absurd heq (by simp)
  · rename_i entries0 heq
    rw [hr] at heq
    have hent : entries0 = entries := by simpa using heq.symm
    subst hent
    split at hstep
    · exact absurd hstep (by simp)
    · rename_i hl visl hloop
      simp only [Except.ok.injEq, Prod.mk.injEq] at hstep
      obtain ⟨hh2, _, hv2⟩ := hstep
      refine ⟨r, entries0, hv2.symm, ?_, ?_⟩
      · obtain ⟨ext, hext⟩ :=
          stripObjLoop_extends _ Hf entries0 entries0 0 none h (r :: []) hl visl none hloop
        rw [← hh2, hext, List.getElem?_append_left hrlt]
        exact hr
      · exact stripObjLoop_none_clean _ entries0 entries0 0 h (r :: []) hl visl hloop
    · rename_i hl visl lst hloop
      simp only [Except.ok.injEq, Prod.mk.injEq] at hstep
      obtain ⟨hh2, _, hv2⟩ := hstep
      refine ⟨hl.length, lst, hv2.symm, ?_, ?_⟩
      · rw [← hh2]
        exact List.getElem?_concat_length hl (HObj.hobj lst)
      · exact stripObjLoop_some_clean _ entries0 Hfna entries0 0 none h (r :: []) hl visl lst
          hloop (fun a ha => by simp at ha)

/-- C1 witness: the claim's concrete example — stripping
`{a: 1, b: undefined, c: "x"}` yields `{a: 1, c: "x"}` with `b` absent
as a key, and the returned mapping has no absent-valued entry. -/
theorem c1_witness :
    wObjHeap[0]? = some (HObj.hobj [("a", Val.vprim (Prim.pnum 1)), ("b", Val.vabsent),
      ("c", Val.vprim (Prim.pstr "x"))]) ∧
    stripUndefined wObjHeap (Val.vref 0) = Except.ok (wObjOut, [0], Val.vref 1) ∧
    (∃ r2 entries2, (Val.vref 1 : Val) = Val.vref r2 ∧
      wObjOut[r2]? = some (HObj.hobj entries2) ∧ ∀ e ∈ entries2, e.2 ≠ Val.vabsent) :=
  ⟨rfl, by decide,
    c1_absent_entries_omitted wObjHeap 0
      [("a", Val.vprim (Prim.pnum 1)), ("b", Val.vabsent), ("c", Val.vprim (Prim.pstr "x"))]
      wObjOut [0] (Val.vref 1) rfl (by decide)⟩

/-- C9: sequence slots are never removed.  The claim's concrete
example: `[1, 2, undefined, 3]` strips to itself (same reference, heap
unchanged).  In general, whenever stripping an array returns, the
result is an array of the same length whose slots holding the absent
marker are exactly preserved in place. -/
theorem c9_arrays :
    stripUndefined arrHeap (Val.vref 0) = Except.ok (arrHeap, [0], Val.vref 0) ∧
    (∀ (h : Heap) (r : Nat) (elems : List Val) (h2 : Heap) (vis2 : List Nat) (v2 : Val),
      h[r]? = some (HObj.harr elems) →
      stripUndefined h (Val.vref r) = Except.ok (h2, vis2, v2) →
      ∃ r2 elems2, v2 = Val.vref r2 ∧ h2[r2]? = some (HObj.harr elems2) ∧
        elems2.length = elems.length ∧
        ∀ (j : Nat), elems[j]? = some Val.vabsent → elems2[j]? = some Val.vabsent) := by
  refine ⟨by decide, ?_⟩
  intro h r elems h2 vis2 v2 hr hstep
  have hrlt : r < h.length := by
    by_contra hc
    have hnone : h[r]? = none := List.getElem?_eq_none (by omega)
    rw [hnone] at hr
    exact absurd hr (by simp)
  have Hf : ∀ c hh visc hc2 visc2 vc,
      stripUndefinedInternal (MAX_DEPTH + 1) (0 + 1) c hh visc = Except.ok (hc2, visc2, vc) →
      ∃ ext, hc2 = hh ++ ext :=
    fun c hh visc hc2 visc2 vc hcall =>
      stripUndefinedInternal_extends _ _ c hh visc _ _ _ hcall
  have Hfa : ∀ hcal viscal hcal2 viscal2 c2,
      stripUndefinedInternal (MAX_DEPTH + 1) (0 + 1) Val.vabsent hcal viscal =
        Except.ok (hcal2, viscal2, c2) →
      c2 = Val.vabsent := by
    intro hcal viscal hcal2 viscal2 c2 hcall
    simp only [stripUndefinedInternal, Except.ok.injEq, Prod.mk.injEq] at hcall
    exact hcall.2.2.symm
  rw [stripUndefined, show (MAX_DEPTH + 2 : Nat) = (MAX_DEPTH + 1) + 1 from rfl] at hstep
  simp only [stripUndefinedInternal] at hstep
  rw [if_neg (show ¬ (0 > MAX_DEPTH) by decide),
    if_neg (show ¬ r ∈ ([] : List Nat) by simp)] at hstep
  split at hstep
  · rename_i heq
    rw [hr] at heq
    exact absurd heq (by simp)
  · rename_i elems0 heq
    rw [hr] at heq
    have hent : elems0 = elems := by simpa using heq.symm
    subst hent
    split at hstep
    · exact absurd hstep (by simp)
    · rename_i hl visl hloop
      simp only [Except.ok.injEq, Prod.mk.injEq] at hstep
      obtain ⟨hh2, _, hv2⟩ := hstep
      refine ⟨r, elems0, hv2.symm, ?_, rfl, fun j hj => hj⟩
      obtain ⟨ext, hext⟩ :=
        stripArrLoop_extends _ Hf elems0 elems0 0 none h (r :: []) hl visl none hloop
      rw [← hh2, hext, List.getElem?_append_left hrlt]
      exact hr
    · rename_i hl visl lst hloop
      simp only [Except.ok.injEq, Prod.mk.injEq] at hstep
      obtain ⟨hh2, _, hv2⟩ := hstep
      obtain ⟨hlen, habs⟩ :=
        stripArrLoop_shape _ elems0 Hfa elems0 0 none h (r :: []) hl visl lst hloop
          (by simp) (by omega) (fun a ha => by simp at ha)
      refine ⟨hl.length, lst, hv2.symm, ?_, hlen, habs⟩
      rw [← hh2]
      exact List.getElem?_concat_length hl (HObj.harr lst)
  · rename_i entries0 heq
    rw [hr] at heq
    exact absurd heq (by simp)

/-- C9 witness: the universal conjunct applied to the one-element array
`[undefined]`, which strips to itself with the absent slot preserved. -/
theorem c9_witness :
    arrAbsentHeap[0]? = some (HObj.harr [Val.vabsent]) ∧
    stripUndefined arrAbsentHeap (Val.vref 0) =
      Except.ok (arrAbsentHeap, [0], Val.vref 0) ∧
    (∃ r2 elems2, (Val.vref 0 : Val) = Val.vref r2 ∧
      arrAbsentHeap[r2]? = some (HObj.harr elems2) ∧
      elems2.length = ([Val.vabsent] : List Val).length ∧
      ∀ (j : Nat), ([Val.vabsent] : List Val)[j]? = some Val.vabsent →
        elems2[j]? = some Val.vabsent) :=
  ⟨rfl, by decide,
    c9_arrays.2 arrAbsentHeap 0 [Val.vabsent] arrAbsentHeap [0] (Val.vref 0) rfl (by decide)⟩

end TrpcMsgpack
